import Mathlib

/-!
Verification of the spaced-repetition core of the app: the SM-2 scheduler
(`calculateSM2`), the due-state classifier (`evaluateCardDueState`), the
scoped card store and review-queue builder (`openLeitnerQueue`), card
creation (`addCurrentWordToLeitner`), rating (`rateCard`), and the
legacy-to-scoped IndexedDB migration (`migrateLegacy`).

Timestamps are modelled as rationals counting days since an epoch: a value
`d + f` with `f ∈ [0,1)` is time-of-day `f` on day `d`, so JavaScript's
`setHours(0,0,0,0)` (truncation to local midnight) is `Int.floor`, adding
`n` days is adding `n`, and "24 hours" is `1`.  JavaScript numbers are
modelled as rationals; `Math.round` is `⌊x + 1/2⌋` (round half toward +∞,
matching JavaScript on the nonnegative values that arise here).  Fields that
a record may lack (`undefined`/`null`) are `Option`s, and JavaScript's
falsy-defaulting `x || d` is modelled by `jsOrQ`/`jsOrS`, under which `0`
resp. `""` also select the default, exactly as in the source.
-/

namespace LeitnerApp

/-- JavaScript `x || d` for a numeric field: a missing value and `0` are
falsy and replaced by the default. -/
def jsOrQ (x : Option ℚ) (d : ℚ) : ℚ :=
  match x with
  | none => d
  | some v => if v = 0 then d else v

/-- JavaScript `x || d` for a string field: a missing value and `""` are
falsy and replaced by the default. -/
def jsOrS (x : Option String) (d : String) : String :=
  match x with
  | none => d
  | some v => if v = "" then d else v

/-- JavaScript truthiness of an optional string. -/
def jsTruthyS (x : Option String) : Bool :=
  match x with
  | none => false
  | some v => v ≠ ""

/-- JavaScript `Math.round` on the nonnegative values arising here:
round half up. -/
def jsRound (q : ℚ) : ℤ := ⌊q + 1/2⌋

/-- `String.trim` on the underlying character list (drop whitespace at both
ends), stated over `List Char` so that it evaluates by `decide`. -/
def trimChars (l : List Char) : List Char :=
  ((l.dropWhile Char.isWhitespace).reverse.dropWhile Char.isWhitespace).reverse

/-- `normalizeWord` from the source: trim, then lower-case. -/
def normalizeWord (w : String) : String :=
  String.mk ((trimChars w.data).map Char.toLower)

/-- A review scope `{type, id}`: `stype` is the scope's `type` field,
`sid` its (possibly absent) `id` field. -/
structure Scope where
  stype : String
  sid : Option String
deriving DecidableEq

/-- `getScopeKey` from the source: `"global:all"` for a falsy or global
type, else `"{type}:{id}"` with the id defaulting to `"all"`. -/
def getScopeKey (scope : Scope) : String :=
  if scope.stype = "" then "global:all"
  else if scope.stype = "global" then "global:all"
  else scope.stype ++ ":" ++ jsOrS scope.sid "all"

/-- `getLeitnerCardId` from the source: scope key plus normalized word. -/
def getLeitnerCardId (word : String) (scope : Scope) : String :=
  getScopeKey scope ++ ":" ++ normalizeWord word

/-- The three numeric fields of a card record exactly as `calculateSM2`
destructures them; any of them may be absent on a raw record. -/
structure SM2State where
  repetitions : Option ℚ
  interval : Option ℚ
  easeFactor : Option ℚ
deriving DecidableEq

/-- The record returned by `calculateSM2`. -/
structure SM2Result where
  repetitions : ℚ
  interval : ℚ
  easeFactor : ℚ
deriving DecidableEq

/-- `AIChatApp.calculateSM2`, transcribed branch by branch from the source.
Defaults are applied with `||` (so falsy fields become `0`, `0`, `2.5`);
`quality < 3` is the failure branch; the success branch keys on
`quality === 5` / `quality === 2` inside each repetition class. -/
def calculateSM2 (card : SM2State) (quality : ℤ) : SM2Result :=
  let repetitions := jsOrQ card.repetitions 0
  let interval := jsOrQ card.interval 0
  let easeFactor := jsOrQ card.easeFactor 2.5
  if quality < 3 then
    { repetitions := 0
      interval := if repetitions = 0 then 0 else 1
      easeFactor := max 1.3 (easeFactor - 0.2) }
  else
    let newEaseFactor :=
      max 1.3 (easeFactor + (0.1 - (5 - (quality : ℚ)) * (0.08 + (5 - (quality : ℚ)) * 0.02)))
    if repetitions = 0 then
      if quality = 5 then
        { repetitions := 2, interval := 4, easeFactor := newEaseFactor }
      else if quality = 2 then
        { repetitions := 0, interval := 0, easeFactor := newEaseFactor }
      else
        { repetitions := 1, interval := 1, easeFactor := newEaseFactor }
    else if repetitions = 1 then
      { repetitions := 2
        interval :=
          if quality = 5 then (jsRound (interval * newEaseFactor * 1.3) : ℚ)
          else if quality = 2 then max 2 (jsRound (interval * 1.2) : ℚ)
          else 6
        easeFactor := newEaseFactor }
    else
      { repetitions := repetitions + 1
        interval :=
          if quality = 5 then (jsRound (interval * newEaseFactor * 1.3) : ℚ)
          else if quality = 2 then max ((jsRound (interval * 1.2) : ℚ)) (interval + 1)
          else (jsRound (interval * newEaseFactor) : ℚ)
        easeFactor := newEaseFactor }

/-- Build the `SM2State` with all three fields present. -/
def mkSM2 (r i ef : ℚ) : SM2State := ⟨some r, some i, some ef⟩

/-- Feed the result of one rating back in as the card state of the next,
as `rateCard` persists it. -/
def stepSM2 (s : SM2State) (quality : ℤ) : SM2State :=
  let r := calculateSM2 s quality
  ⟨some r.repetitions, some r.interval, some r.easeFactor⟩

/-- A stored flashcard record, as created by `addCurrentWordToLeitner` and
updated by `rateCard`. -/
structure Card where
  id : String
  word : String
  scopeType : String
  scopeId : String
  scopeKey : String
  createdAt : ℚ
  dueDate : Option ℚ
  repetitions : ℚ
  interval : ℚ
  easeFactor : ℚ
  lastReviewed : Option ℚ
  status : String
deriving DecidableEq

/-- The three fields of a stored card as `calculateSM2` reads them. -/
def Card.sm2 (c : Card) : SM2State :=
  ⟨some c.repetitions, some c.interval, some c.easeFactor⟩

/-- The four due states of `evaluateCardDueState`. -/
inductive DueState
  | new
  | scheduled
  | due
  | overdue
deriving DecidableEq

/-- `AIChatApp.evaluateCardDueState` (the `state` component): a falsy
`dueDate` is replaced by `now`; the due test compares the raw timestamps
(`due <= now`, no truncation); overdue means more than 24 hours past due. -/
def evaluateCardDueState (card : Card) (now : ℚ) : DueState :=
  let due := card.dueDate.getD now
  if due ≤ now then
    (if now - due > 1 then .overdue else .due)
  else
    (if card.repetitions = 0 then .new else .scheduled)

/-- Lookup in a keyed object store: first record whose key is `k`
(IndexedDB `store.get`). -/
def findByKey {α : Type} (key : α → String) (s : List α) (k : String) : Option α :=
  s.find? (fun c => decide (key c = k))

/-- IndexedDB `store.put` with `keyPath` the given key: replace the
record(s) already stored under the key, or append the record. -/
def putByKey {α : Type} (key : α → String) (s : List α) (c : α) : List α :=
  if s.any (fun x => decide (key x = key c)) then
    s.map (fun x => if key x = key c then c else x)
  else s ++ [c]

/-- Outcome reported by `addCurrentWordToLeitner` (toast message). -/
inductive AddResult
  | added
  | alreadyExists
  | emptyWord
deriving DecidableEq

/-- The fresh card `addCurrentWordToLeitner` builds for an (already
normalized) word: due immediately, `repetitions 0, interval 0,
easeFactor 2.5`, status `"new"`. -/
def newLeitnerCard (normalizedWord : String) (scope : Scope) (now : ℚ) : Card :=
  { id := getLeitnerCardId normalizedWord scope
    word := normalizedWord
    scopeType := scope.stype
    scopeId := jsOrS scope.sid "all"
    scopeKey := getScopeKey scope
    createdAt := now
    dueDate := some now
    repetitions := 0
    interval := 0
    easeFactor := 2.5
    lastReviewed := none
    status := "new" }

/-- `AIChatApp.addCurrentWordToLeitner`: normalize the word; reject an
empty word; if a card with this id already exists, leave the store
unchanged and report it; otherwise store a fresh card due immediately. -/
def addCurrentWordToLeitner (store : List Card) (word : String) (scope : Scope)
    (now : ℚ) : List Card × AddResult :=
  let normalizedWord := normalizeWord word
  if normalizedWord = "" then (store, .emptyWord)
  else
    let cardId := getLeitnerCardId normalizedWord scope
    match findByKey Card.id store cardId with
    | some _ => (store, .alreadyExists)
    | none => (putByKey Card.id store (newLeitnerCard normalizedWord scope now), .added)

/-- The scope/due admission test of `openLeitnerModal`'s filter: a falsy
`scopeKey` is rejected; a key differing from the target is kept only when
global fallback applies and the card is global; the due test truncates the
card's due date and `now` to midnight (`setHours(0,0,0,0)`) and compares.
A missing `dueDate` gives an invalid date whose comparison is false. -/
def leitnerQueueAdmits (scopeKey : String) (now : ℚ) (c : Card) : Bool :=
  if c.scopeKey = "" then false
  else if c.scopeKey ≠ scopeKey then
    (if ¬scopeKey ≠ "global:all" then false
     else if c.scopeKey ≠ "global:all" then false
     else match c.dueDate with
          | none => false
          | some d => decide (⌊d⌋ ≤ ⌊now⌋))
  else match c.dueDate with
       | none => false
       | some d => decide (⌊d⌋ ≤ ⌊now⌋)

/-- The review queue assembled by `AIChatApp.openLeitnerModal` before the
random shuffle (the shuffle is a permutation of this list, so membership
and the two counts below are unaffected by it). -/
def openLeitnerQueue (store : List Card) (scope : Scope) (now : ℚ) : List Card :=
  store.filter (leitnerQueueAdmits (getScopeKey scope) now)

/-- `newCount` of the stats line: queued cards with `repetitions === 0`. -/
def leitnerNewCount (q : List Card) : ℕ :=
  (q.filter (fun c => decide (c.repetitions = 0))).length

/-- `reviewCount` of the stats line: queued cards with `repetitions > 0`. -/
def leitnerReviewCount (q : List Card) : ℕ :=
  (q.filter (fun c => decide (c.repetitions > 0))).length

/-- The button-to-quality table of `rateCard` (`qualityMap`); ratings
outside 1–4 have no entry. -/
def qualityMap (rating : ℕ) : Option ℤ :=
  if rating = 1 then some 0
  else if rating = 2 then some 2
  else if rating = 3 then some 3
  else if rating = 4 then some 5
  else none

/-- The status written by `rateCard`: `"learning"` below two repetitions,
`"review"` from two on. -/
def rateStatus (repetitions : ℚ) : String :=
  if repetitions = 0 then "learning"
  else if repetitions < 2 then "learning"
  else "review"

/-- `AIChatApp.rateCard` on the current card: run `calculateSM2`, set the
due date to today's midnight plus the new interval, stamp `lastReviewed`,
derive the status. -/
def rateCard (card : Card) (quality : ℤ) (now : ℚ) : Card :=
  let sm2Result := calculateSM2 card.sm2 quality
  let nextDueDate : ℚ := (⌊now⌋ : ℚ) + sm2Result.interval
  { card with
      repetitions := sm2Result.repetitions
      interval := sm2Result.interval
      easeFactor := sm2Result.easeFactor
      dueDate := some nextDueDate
      lastReviewed := some now
      status := rateStatus sm2Result.repetitions }

/-- `rateCard` including its persistence step (`db.set` = upsert by id). -/
def rateCardPersist (store : List Card) (card : Card) (quality : ℤ) (now : ℚ) :
    List Card :=
  putByKey Card.id store (rateCard card quality now)

/-- A record of the legacy (unscoped) `leitner_cards` table.  `word` may be
falsy (missing word modelled as `""`); the remaining payload fields are
carried over verbatim by the migration. -/
structure LegacyCard where
  word : String
  chatId : Option String
  createdAt : Option ℚ
  repetitions : Option ℚ
  interval : Option ℚ
  easeFactor : Option ℚ
  dueDate : Option ℚ
deriving DecidableEq

/-- A record of the scoped `leitner_cards_v2` table as written by the
migration. -/
structure MigCard where
  id : String
  word : String
  chatId : Option String
  scopeType : String
  scopeId : String
  scopeKey : String
  createdAt : ℚ
  migratedFromLegacy : Bool
  repetitions : Option ℚ
  interval : Option ℚ
  easeFactor : Option ℚ
  dueDate : Option ℚ
deriving DecidableEq

/-- One legacy record migrated, as in `CacheDB.init`'s upgrade handler:
scope from the presence of `chatId`, deterministic id from scope key and
word, `createdAt` defaulted, the rest spread through. -/
def migrateRecord (now : ℚ) (v : LegacyCard) : MigCard :=
  let scopeType := if jsTruthyS v.chatId then "chat" else "global"
  let scopeId := jsOrS v.chatId "all"
  let scopeKey := scopeType ++ ":" ++ scopeId
  { id := scopeKey ++ ":" ++ v.word
    word := v.word
    chatId := v.chatId
    scopeType := scopeType
    scopeId := scopeId
    scopeKey := scopeKey
    createdAt := jsOrQ v.createdAt now
    migratedFromLegacy := true
    repetitions := v.repetitions
    interval := v.interval
    easeFactor := v.easeFactor
    dueDate := v.dueDate }

/-- The migration cursor loop of `CacheDB.init`: walk the legacy table in
order; records with a falsy `word` are skipped; the rest are `put` (upsert
by id) into the scoped store. -/
def migrateLegacy (now : ℚ) (legacy : List LegacyCard) (store : List MigCard) :
    List MigCard :=
  legacy.foldl
    (fun st v => if v.word = "" then st else putByKey MigCard.id st (migrateRecord now v))
    store

/-- `showNextCard` switches to the finished screen exactly when the queue
has run empty. -/
def leitnerSessionFinished (queue : List Card) : Bool := queue.isEmpty

/-- The due-state classifier as the spec's words describe it ("compare
`now` to `dueDate` (both truncated to day granularity for the due/not-due
test)"), written only to be compared against `evaluateCardDueState`, which
compares the raw timestamps instead. -/
def classifySpecWords (card : Card) (now : ℚ) : DueState :=
  let due := card.dueDate.getD now
  if ⌊due⌋ ≤ ⌊now⌋ then
    (if now - due > 1 then .overdue else .due)
  else
    (if card.repetitions = 0 then .new else .scheduled)

/-- A card with its due date at noon of day 0 and one repetition, used to
separate the raw-timestamp due test from the truncated one. -/
def noonCard : Card :=
  { id := "global:all:moon", word := "moon", scopeType := "global"
    scopeId := "all", scopeKey := "global:all", createdAt := 0
    dueDate := some (1/2), repetitions := 1, interval := 1
    easeFactor := 2.5, lastReviewed := none, status := "learning" }

/-- The scope of the end-to-end scenario: `document:doc1`. -/
def doc1Scope : Scope := ⟨"document", some "doc1"⟩

/-- The card `addCurrentWordToLeitner` stores for `"run"` under
`document:doc1` at time `now`. -/
def runCard (now : ℚ) : Card :=
  { id := "document:doc1:run", word := "run", scopeType := "document"
    scopeId := "doc1", scopeKey := "document:doc1", createdAt := now
    dueDate := some now, repetitions := 0, interval := 0
    easeFactor := 2.5, lastReviewed := none, status := "new" }

/-- The same card after rating Good (quality 3) at time `now`. -/
def ratedRunCard (now : ℚ) : Card :=
  { runCard now with
      repetitions := 1, interval := 1, easeFactor := 59/25
      dueDate := some ((⌊now⌋ : ℚ) + 1), lastReviewed := some now
      status := "learning" }

/-- A card stored under the global scope, due on day 0. -/
def globalSunCard : Card :=
  { id := "global:all:sun", word := "sun", scopeType := "global"
    scopeId := "all", scopeKey := "global:all", createdAt := 0
    dueDate := some 0, repetitions := 0, interval := 0
    easeFactor := 2.5, lastReviewed := none, status := "new" }

/-- A card stored under scope `chat:A`, due on day 0. -/
def chatASunCard : Card :=
  { id := "chat:A:sun", word := "sun", scopeType := "chat"
    scopeId := "A", scopeKey := "chat:A", createdAt := 0
    dueDate := some 0, repetitions := 0, interval := 0
    easeFactor := 2.5, lastReviewed := none, status := "new" }

/-- A well-formed legacy record attached to chat `c1`. -/
def legacyCatCard : LegacyCard :=
  { word := "cat", chatId := some "c1", createdAt := some 1
    repetitions := none, interval := none, easeFactor := none, dueDate := none }

/-- A malformed legacy record with a missing (falsy) word. -/
def legacyBlankCard : LegacyCard :=
  { word := "", chatId := some "c2", createdAt := none
    repetitions := none, interval := none, easeFactor := none, dueDate := none }

/-- The lookup a migration pass leaves behind, computed directly on lookup
functions: each migrated record overwrites its own id. -/
def migLookupAfter (now : ℚ) (legacy : List LegacyCard)
    (g : String → Option MigCard) : String → Option MigCard :=
  legacy.foldl
    (fun acc v =>
      if v.word = "" then acc
      else fun k => if (migrateRecord now v).id = k then some (migrateRecord now v) else acc k)
    g

section StoreLemmas

variable {α : Type} (key : α → String)

theorem findByKey_nil (k : String) : findByKey key [] k = none := rfl

theorem findByKey_cons (x : α) (s : List α) (k : String) :
    findByKey key (x :: s) k = if key x = k then some x else findByKey key s k := by
  by_cases h : key x = k <;> simp [findByKey, List.find?_cons, h]

theorem findByKey_append (s t : List α) (k : String) :
    findByKey key (s ++ t) k =
      match findByKey key s k with
      | some c => some c
      | none => findByKey key t k := by
  induction s with
  | nil => simp [findByKey_nil]
  | cons x s ih =>
      by_cases h : key x = k <;>
        simp [findByKey_cons, h, ih]

theorem findByKey_eq_none_iff (s : List α) (k : String) :
    findByKey key s k = none ↔ ∀ x ∈ s, key x ≠ k := by
  simp [findByKey, List.find?_eq_none]

theorem key_of_mem_map_replace (c x : α) :
    key (if key x = key c then c else x) = key x := by
  by_cases h : key x = key c <;> simp [h]

theorem findByKey_map_replace (s : List α) (c : α) (k : String) :
    findByKey key (s.map (fun x => if key x = key c then c else x)) k =
      if key c = k then (findByKey key s (key c)).map (fun _ => c)
      else findByKey key s k := by
  induction s with
  | nil => by_cases h : key c = k <;> simp [findByKey_nil, h]
  | cons x s ih =>
      have hfx := key_of_mem_map_replace key c x
      rw [List.map_cons]
      rw [findByKey_cons, hfx]
      by_cases hk : key x = k
      · by_cases hc : key c = k
        · have hxc : key x = key c := by rw [hk, hc]
          rw [if_pos hk, if_pos hc, findByKey_cons, if_pos hxc, if_pos hxc]
          rfl
        · have hxc : ¬ key x = key c := fun h => hc (by rw [← h]; exact hk)
          rw [if_pos hk, if_neg hc, findByKey_cons, if_pos hk, if_neg hxc]
      · by_cases hc : key c = k
        · have hxc : ¬ key x = key c := fun h => hk (by rw [h]; exact hc)
          rw [if_neg hk, ih, if_pos hc, if_pos hc, findByKey_cons, if_neg hxc]
        · rw [if_neg hk, ih, if_neg hc, if_neg hc, findByKey_cons, if_neg hk]

theorem findByKey_putByKey (s : List α) (c : α) (k : String) :
    findByKey key (putByKey key s c) k =
      if key c = k then some c else findByKey key s k := by
  unfold putByKey
  by_cases hany : s.any (fun x => decide (key x = key c)) = true
  · rw [if_pos hany, findByKey_map_replace]
    by_cases hc : key c = k
    · rw [if_pos hc, if_pos hc]
      obtain ⟨x, hx, hxc⟩ := List.any_eq_true.mp hany
      have hne : ¬ findByKey key s (key c) = none := fun hn =>
        (findByKey_eq_none_iff key s (key c)).mp hn x hx (of_decide_eq_true hxc)
      obtain ⟨y, hy⟩ := Option.ne_none_iff_exists'.mp hne
      simp [hy]
    · rw [if_neg hc, if_neg hc]
  · rw [if_neg hany, findByKey_append]
    have hnone : ∀ x ∈ s, key x ≠ key c := fun x hx hxc =>
      hany (List.any_eq_true.mpr ⟨x, hx, decide_eq_true hxc⟩)
    by_cases hc : key c = k
    · have hfs : findByKey key s k = none := by
        rw [findByKey_eq_none_iff]
        intro x hx
        rw [← hc]
        exact hnone x hx
      simp [hfs, findByKey_cons, hc]
    · cases hfs : findByKey key s k <;> simp [findByKey_cons, hc, findByKey_nil]

theorem map_key_map_replace (s : List α) (c : α) :
    (s.map (fun x => if key x = key c then c else x)).map key = s.map key := by
  rw [List.map_map]
  exact List.map_congr_left (fun x _ => key_of_mem_map_replace key c x)

theorem map_key_putByKey (s : List α) (c : α) :
    (putByKey key s c).map key =
      if s.any (fun x => decide (key x = key c)) then s.map key
      else s.map key ++ [key c] := by
  unfold putByKey
  by_cases hany : s.any (fun x => decide (key x = key c)) = true
  · rw [if_pos hany, if_pos hany, map_key_map_replace]
  · rw [if_neg hany, if_neg hany, List.map_append, List.map_singleton]

theorem mem_map_key_putByKey_self (s : List α) (c : α) :
    key c ∈ (putByKey key s c).map key := by
  rw [map_key_putByKey]
  by_cases hany : s.any (fun x => decide (key x = key c))
  · rw [if_pos hany]
    obtain ⟨x, hx, hxc⟩ := List.any_eq_true.mp hany
    exact List.mem_map.mpr ⟨x, hx, of_decide_eq_true hxc⟩
  · rw [if_neg hany]
    simp

theorem mem_map_key_putByKey_of_mem (s : List α) (c : α) (k : String)
    (h : k ∈ s.map key) : k ∈ (putByKey key s c).map key := by
  rw [map_key_putByKey]
  by_cases hany : s.any (fun x => decide (key x = key c)) <;>
    simp [hany, h]

theorem map_key_putByKey_of_mem (s : List α) (c : α)
    (h : key c ∈ s.map key) : (putByKey key s c).map key = s.map key := by
  rw [map_key_putByKey]
  obtain ⟨x, hx, hxc⟩ := List.mem_map.mp h
  have hany : s.any (fun x => decide (key x = key c)) = true :=
    List.any_eq_true.mpr ⟨x, hx, decide_eq_true hxc⟩
  rw [if_pos hany]

theorem nodup_map_key_putByKey (s : List α) (c : α)
    (h : (s.map key).Nodup) : ((putByKey key s c).map key).Nodup := by
  rw [map_key_putByKey]
  by_cases hany : s.any (fun x => decide (key x = key c)) = true
  · rwa [if_pos hany]
  · rw [if_neg hany]
    have hnotmem : key c ∉ s.map key := by
      intro hmem
      obtain ⟨x, hx, hxc⟩ := List.mem_map.mp hmem
      exact hany (List.any_eq_true.mpr ⟨x, hx, decide_eq_true hxc⟩)
    simp [List.nodup_append, h, hnotmem]

theorem eq_of_map_key_eq_of_lookups_eq :
    ∀ (s t : List α), s.map key = t.map key → (s.map key).Nodup →
      (∀ k, findByKey key s k = findByKey key t k) → s = t := by
  intro s
  induction s with
  | nil =>
      intro t hmap _ _
      cases t with
      | nil => rfl
      | cons b t => simp at hmap
  | cons a s ih =>
      intro t hmap hnodup hlook
      cases t with
      | nil => simp at hmap
      | cons b t =>
          simp only [List.map_cons, List.cons.injEq] at hmap
          obtain ⟨hab, htail⟩ := hmap
          have hhead : a = b := by
            have h1 := hlook (key a)
            rw [findByKey_cons, if_pos rfl, findByKey_cons, if_pos hab.symm] at h1
            exact Option.some.inj h1
          subst hhead
          simp only [List.map_cons, List.nodup_cons] at hnodup
          have htl : ∀ k, findByKey key s k = findByKey key t k := by
            intro k
            by_cases hk : key a = k
            · subst hk
              have hs : findByKey key s (key a) = none := by
                rw [findByKey_eq_none_iff]
                intro x hx hxa
                exact hnodup.1 (hxa ▸ List.mem_map_of_mem key hx)
              have ht : findByKey key t (key a) = none := by
                rw [findByKey_eq_none_iff]
                intro x hx hxa
                have : key x ∈ t.map key := List.mem_map_of_mem key hx
                rw [← htail] at this
                exact hnodup.1 (hxa ▸ this)
              rw [hs, ht]
            · have h1 := hlook k
              rwa [findByKey_cons, if_neg hk, findByKey_cons, if_neg hk] at h1
          rw [ih t htail hnodup.2 htl]

end StoreLemmas

theorem jsOrQ_some_zero (r : ℚ) : jsOrQ (some r) 0 = r := by
  by_cases h : r = 0 <;> simp [jsOrQ, h]

theorem jsOrQ_some_of_ne_zero {v : ℚ} (d : ℚ) (h : v ≠ 0) : jsOrQ (some v) d = v := by
  simp [jsOrQ, h]

theorem jsOrQ_idem (x : Option ℚ) (d : ℚ) : jsOrQ (some (jsOrQ x d)) d = jsOrQ x d := by
  cases x with
  | none => simp [jsOrQ]
  | some v => by_cases hv : v = 0 <;> simp [jsOrQ, hv]

theorem calculateSM2_easeFactor_ge (c : SM2State) (q : ℤ) :
    (1.3 : ℚ) ≤ (calculateSM2 c q).easeFactor := by
  simp only [calculateSM2]
  split_ifs <;> simp [le_max_left]

theorem calculateSM2_reads_through_defaults (c₁ c₂ : SM2State) (q : ℤ)
    (h₁ : jsOrQ c₁.repetitions 0 = jsOrQ c₂.repetitions 0)
    (h₂ : jsOrQ c₁.interval 0 = jsOrQ c₂.interval 0)
    (h₃ : jsOrQ c₁.easeFactor 2.5 = jsOrQ c₂.easeFactor 2.5) :
    calculateSM2 c₁ q = calculateSM2 c₂ q := by
  simp only [calculateSM2, h₁, h₂, h₃]

/-- C1: the spec's SM-2 table tests hold: from `{repetitions:0, interval:0,
easeFactor:2.5}` quality 5 gives repetitions 2 and interval 4 and, after
rating, status `"review"`; quality 3 gives repetitions 1 and interval 1;
from `{repetitions:2, interval:6, easeFactor:2.5}` quality 0 gives
repetitions 0, interval 1 and ease factor 2.3. -/
theorem sm2_table_tests :
    (calculateSM2 (mkSM2 0 0 2.5) 5).repetitions = 2 ∧
    (calculateSM2 (mkSM2 0 0 2.5) 5).interval = 4 ∧
    rateStatus (calculateSM2 (mkSM2 0 0 2.5) 5).repetitions = "review" ∧
    (calculateSM2 (mkSM2 0 0 2.5) 3).repetitions = 1 ∧
    (calculateSM2 (mkSM2 0 0 2.5) 3).interval = 1 ∧
    (calculateSM2 (mkSM2 2 6 2.5) 0).repetitions = 0 ∧
    (calculateSM2 (mkSM2 2 6 2.5) 0).interval = 1 ∧
    (calculateSM2 (mkSM2 2 6 2.5) 0).easeFactor = 2.3 := by
  refine ⟨?_, ?_, ?_, ?_, ?_, ?_, ?_, ?_⟩ <;>
    norm_num [calculateSM2, mkSM2, jsOrQ, rateStatus]

/-- C2 is false on the code: rating Hard maps to quality 2, and
`calculateSM2` routes every `quality < 3` — quality 2 included — through
the failure branch, so a graduated card (`repetitions = 1, interval = 6`)
comes back with repetitions 0 and interval 1 (not repetitions 2 and
interval `max(2, round(6*1.2)) = 7`), and a mature card
(`repetitions = 2, interval = 10`) likewise resets (not repetitions 3 and
interval `max(round(10*1.2), 11) = 12`).  The `quality === 2` handling in
the success branch of the source is unreachable. -/
theorem sm2_hard_quality_is_failure :
    (calculateSM2 (mkSM2 1 6 2.5) 2).repetitions = 0 ∧
    (calculateSM2 (mkSM2 1 6 2.5) 2).interval = 1 ∧
    (calculateSM2 (mkSM2 1 6 2.5) 2).easeFactor = 2.3 ∧
    (calculateSM2 (mkSM2 2 10 2.5) 2).repetitions = 0 ∧
    (calculateSM2 (mkSM2 2 10 2.5) 2).interval = 1 := by
  refine ⟨?_, ?_, ?_, ?_, ?_⟩ <;>
    norm_num [calculateSM2, mkSM2, jsOrQ]

/-- C3: on failure (`quality < 3`) the scheduler resets repetitions to 0,
sets the interval to 0 for a card that never graduated and to 1 otherwise,
and decreases the ease factor by 0.2 with a floor of 1.3. -/
theorem sm2_failure_resets (r i ef : ℚ) (q : ℤ) (hef : 1.3 ≤ ef) (hq : q < 3) :
    (calculateSM2 (mkSM2 r i ef) q).repetitions = 0 ∧
    (calculateSM2 (mkSM2 r i ef) q).interval = (if r = 0 then 0 else 1) ∧
    (calculateSM2 (mkSM2 r i ef) q).easeFactor = max 1.3 (ef - 0.2) := by
  have hne : ef ≠ 0 := by
    intro h
    rw [h] at hef
    norm_num at hef
  have h1 : jsOrQ (some ef) 2.5 = ef := jsOrQ_some_of_ne_zero 2.5 hne
  simp only [calculateSM2, mkSM2, jsOrQ_some_zero, h1, if_pos hq]
  exact ⟨trivial, trivial, trivial⟩

theorem sm2_failure_resets_witness :
    (calculateSM2 (mkSM2 2 6 2.5) 0).repetitions = 0 ∧
    (calculateSM2 (mkSM2 2 6 2.5) 0).interval = (if (2 : ℚ) = 0 then 0 else 1) ∧
    (calculateSM2 (mkSM2 2 6 2.5) 0).easeFactor = max 1.3 (2.5 - 0.2) :=
  sm2_failure_resets 2 6 2.5 0 (by norm_num) (by norm_num)

/-- C4: the ease-factor floor is an invariant.  For a card whose ease
factor is at least 1.3 and any of the four button qualities the returned
ease factor is at least 1.3; moreover, after any sequence of ratings
(each result fed back in as `rateCard` persists it) the returned ease
factor is at least 1.3 — it never drops below the floor. -/
theorem sm2_ease_factor_floor :
    (∀ (c : SM2State) (q : ℤ) (ef : ℚ), c.easeFactor = some ef → 1.3 ≤ ef →
      (q = 0 ∨ q = 2 ∨ q = 3 ∨ q = 5) → 1.3 ≤ (calculateSM2 c q).easeFactor) ∧
    (∀ (c : SM2State) (qs : List ℤ) (q : ℤ),
      1.3 ≤ (calculateSM2 (qs.foldl stepSM2 c) q).easeFactor) := by
  constructor
  · intro c q ef _ _ _
    exact calculateSM2_easeFactor_ge c q
  · intro c qs q
    exact calculateSM2_easeFactor_ge (qs.foldl stepSM2 c) q

theorem sm2_ease_factor_floor_witness :
    (1.3 : ℚ) ≤ (calculateSM2 (mkSM2 0 0 2.5) 0).easeFactor :=
  sm2_ease_factor_floor.1 (mkSM2 0 0 2.5) 0 2.5 rfl (by norm_num) (Or.inl rfl)

/-- C10: `calculateSM2` is total over raw records: it replaces a missing
or falsy `repetitions`/`interval`/`easeFactor` with 0/0/2.5 before
applying any rule, so a record whose ease factor is 0, null or undefined
is scheduled exactly as if it were 2.5. -/
theorem sm2_total_with_defaults (r i ef : Option ℚ) (q : ℤ) :
    calculateSM2 ⟨r, i, ef⟩ q
        = calculateSM2 ⟨some (jsOrQ r 0), some (jsOrQ i 0), some (jsOrQ ef 2.5)⟩ q ∧
    calculateSM2 ⟨r, i, some 0⟩ q = calculateSM2 ⟨r, i, some 2.5⟩ q ∧
    calculateSM2 ⟨r, i, none⟩ q = calculateSM2 ⟨r, i, some 2.5⟩ q := by
  refine ⟨calculateSM2_reads_through_defaults _ _ _ (by simp [jsOrQ_idem])
            (by simp [jsOrQ_idem]) (by simp [jsOrQ_idem]),
          calculateSM2_reads_through_defaults _ _ _ rfl rfl (by norm_num [jsOrQ]),
          calculateSM2_reads_through_defaults _ _ _ rfl rfl (by norm_num [jsOrQ])⟩

/-- C6 as stated is false on the code: `evaluateCardDueState` compares the
raw timestamps, not day-truncated ones.  For a card due at noon of day 0
inspected at 6am of day 0 the spec's truncated test says "due" while the
code classifies it "scheduled". -/
theorem due_state_truncation_counterexample :
    classifySpecWords noonCard (1/4) = DueState.due ∧
    evaluateCardDueState noonCard (1/4) = DueState.scheduled := by
  constructor
  · have hfh : (⌊(1/2 : ℚ)⌋ : ℤ) = 0 := by norm_num [Int.floor_eq_iff]
    have hfq : (⌊(1/4 : ℚ)⌋ : ℤ) = 0 := by norm_num [Int.floor_eq_iff]
    simp only [classifySpecWords, noonCard, Option.getD_some, hfh, hfq]
    norm_num
  · simp only [evaluateCardDueState, noonCard, Option.getD_some]
    norm_num

/-- C6 amended: for every card and time, `evaluateCardDueState` yields
exactly one of the four states, determined by the *raw* (untruncated)
comparison of `now` with the due date (a missing due date counting as
`now`): overdue iff due and more than 24 hours past due, due iff due and
not overdue, new iff not due with zero repetitions, scheduled iff not due
with nonzero repetitions. -/
theorem evaluateCardDueState_characterization (c : Card) (now : ℚ) :
    (evaluateCardDueState c now = .overdue ↔
      c.dueDate.getD now ≤ now ∧ now - c.dueDate.getD now > 1) ∧
    (evaluateCardDueState c now = .due ↔
      c.dueDate.getD now ≤ now ∧ ¬ now - c.dueDate.getD now > 1) ∧
    (evaluateCardDueState c now = .new ↔
      ¬ c.dueDate.getD now ≤ now ∧ c.repetitions = 0) ∧
    (evaluateCardDueState c now = .scheduled ↔
      ¬ c.dueDate.getD now ≤ now ∧ c.repetitions ≠ 0) := by
  simp only [evaluateCardDueState]
  split_ifs with h1 h2 h3 <;> simp_all

theorem add_run_eq (now : ℚ) :
    addCurrentWordToLeitner [] "run" doc1Scope now = ([runCard now], .added) := rfl

theorem open_run_eq (now : ℚ) :
    openLeitnerQueue [runCard now] doc1Scope now = [runCard now] := by
  have hadm : leitnerQueueAdmits (getScopeKey doc1Scope) now (runCard now) = true := by
    show decide ((⌊now⌋ : ℤ) ≤ ⌊now⌋) = true
    exact decide_eq_true (le_refl _)
  simp [openLeitnerQueue, List.filter_cons, hadm]

theorem rate_run_eq (now : ℚ) :
    rateCard (runCard now) 3 now = ratedRunCard now := by
  have hcalc : calculateSM2 (runCard now).sm2 3 = ⟨1, 1, 59/25⟩ := by
    norm_num [calculateSM2, Card.sm2, runCard, jsOrQ]
  simp only [rateCard]
  rw [hcalc]
  norm_num [ratedRunCard, runCard, rateStatus]

/-- C5 as stated is false on the code: rating Good (quality 3) on the
freshly added card gives repetitions 1, and `rateCard` labels every card
with fewer than two repetitions `"learning"`, not `"review"`. -/
theorem end_to_end_status_counterexample :
    addCurrentWordToLeitner [] "run" doc1Scope 0 = ([runCard 0], .added) ∧
    openLeitnerQueue [runCard 0] doc1Scope 0 = [runCard 0] ∧
    (rateCard (runCard 0) 3 0).status = "learning" ∧
    ("learning" : String) ≠ "review" := by
  refine ⟨add_run_eq 0, open_run_eq 0, ?_, by decide⟩
  rw [rate_run_eq 0]
  rfl

/-- C5 amended: the end-to-end scenario holds with the persisted status
`"learning"` instead of the claimed `"review"` (one Good rating leaves
`repetitions = 1 < 2`).  Adding `"run"` under `document:doc1` stores
exactly `runCard now` (due immediately); the review queue for that scope
is exactly that card with `newCount = 1`, `reviewCount = 0`; the Good
button maps to quality 3, and rating persists `ratedRunCard now` —
repetitions 1, interval 1, status `"learning"`, due tomorrow midnight;
the remaining queue is empty, so the session reports finished. -/
theorem end_to_end_review_scenario (now : ℚ) :
    addCurrentWordToLeitner [] "run" doc1Scope now = ([runCard now], .added) ∧
    openLeitnerQueue [runCard now] doc1Scope now = [runCard now] ∧
    leitnerNewCount (openLeitnerQueue [runCard now] doc1Scope now) = 1 ∧
    leitnerReviewCount (openLeitnerQueue [runCard now] doc1Scope now) = 0 ∧
    qualityMap 3 = some 3 ∧
    rateCard (runCard now) 3 now = ratedRunCard now ∧
    (ratedRunCard now).repetitions = 1 ∧
    (ratedRunCard now).interval = 1 ∧
    (ratedRunCard now).status = "learning" ∧
    (ratedRunCard now).dueDate = some ((⌊now⌋ : ℚ) + 1) ∧
    rateCardPersist [runCard now] (runCard now) 3 now = [ratedRunCard now] ∧
    leitnerSessionFinished (openLeitnerQueue [runCard now] doc1Scope now).tail = true := by
  have hopen := open_run_eq now
  have hput : putByKey Card.id [runCard now] (ratedRunCard now) = [ratedRunCard now] := rfl
  refine ⟨add_run_eq now, hopen, ?_, ?_, rfl, rate_run_eq now, rfl, rfl, rfl, rfl, ?_, ?_⟩
  · rw [hopen]
    simp [leitnerNewCount, List.filter_cons, runCard]
  · rw [hopen]
    norm_num [leitnerReviewCount, List.filter_cons, runCard]
  · unfold rateCardPersist
    rw [rate_run_eq now]
    exact hput
  · rw [hopen]
    rfl

theorem string_data_append (s t : String) : (s ++ t).data = s.data ++ t.data := by
  cases s
  cases t
  rfl

theorem string_append_left_cancel {p a b : String} (h : p ++ a = p ++ b) : a = b := by
  have hd : (p ++ a).data = (p ++ b).data := by rw [h]
  rw [string_data_append, string_data_append] at hd
  have hab : a.data = b.data := List.append_cancel_left hd
  cases a
  cases b
  exact congrArg String.mk hab

theorem chat_key_ne_global (A : String) : "chat:" ++ A ≠ "global:all" := by
  intro h
  have hd : ("chat:" ++ A).data = ("global:all" : String).data := by rw [h]
  rw [string_data_append] at hd
  have h5 : ("chat:" : String).data = ['c', 'h', 'a', 't', ':'] := by decide
  have h10 : ("global:all" : String).data
      = ['g', 'l', 'o', 'b', 'a', 'l', ':', 'a', 'l', 'l'] := by decide
  rw [h5, h10] at hd
  injection hd with h1 _
  exact absurd h1 (by decide)

theorem getScopeKey_chat {A : String} (hA : A ≠ "") :
    getScopeKey ⟨"chat", some A⟩ = "chat:" ++ A := by
  have h1 : ("chat" ++ ":" : String) = "chat:" := by decide
  simp only [getScopeKey, jsOrS]
  rw [if_neg (by decide : ¬("chat" : String) = ""),
      if_neg (by decide : ¬("chat" : String) = "global"),
      if_neg hA, ← h1, String.append_assoc]

theorem mem_openLeitnerQueue {store : List Card} {scope : Scope} {now : ℚ} {c : Card}
    (h : c ∈ openLeitnerQueue store scope now) :
    c.scopeKey = getScopeKey scope ∨
      (getScopeKey scope ≠ "global:all" ∧ c.scopeKey = "global:all") := by
  have hadm := (List.mem_filter.mp h).2
  unfold leitnerQueueAdmits at hadm
  by_cases h1 : c.scopeKey = ""
  · rw [if_pos h1] at hadm
    simp at hadm
  · rw [if_neg h1] at hadm
    by_cases h2 : c.scopeKey ≠ getScopeKey scope
    · rw [if_pos h2] at hadm
      by_cases h3 : ¬ getScopeKey scope ≠ "global:all"
      · rw [if_pos h3] at hadm
        simp at hadm
      · rw [if_neg h3] at hadm
        by_cases h4 : c.scopeKey ≠ "global:all"
        · rw [if_pos h4] at hadm
          simp at hadm
        · exact Or.inr ⟨not_not.mp h3, not_not.mp h4⟩
    · exact Or.inl (not_not.mp h2)

theorem global_card_mem_queue {store : List Card} {scope : Scope} {now : ℚ}
    {c : Card} {d : ℚ} (hmem : c ∈ store) (hkey : c.scopeKey = "global:all")
    (hdue : c.dueDate = some d) (hfl : ⌊d⌋ ≤ ⌊now⌋) :
    c ∈ openLeitnerQueue store scope now := by
  refine List.mem_filter.mpr ⟨hmem, ?_⟩
  unfold leitnerQueueAdmits
  rw [hkey, hdue]
  by_cases hsk : getScopeKey scope = "global:all"
  · rw [hsk, if_neg (by decide : ¬("global:all" : String) = ""),
        if_neg (show ¬("global:all" : String) ≠ "global:all" by simp)]
    exact decide_eq_true hfl
  · rw [if_neg (by decide : ¬("global:all" : String) = ""),
        if_pos (show ("global:all" : String) ≠ getScopeKey scope from fun h => hsk h.symm),
        if_neg (show ¬¬(getScopeKey scope ≠ "global:all") from not_not.mpr hsk),
        if_neg (show ¬("global:all" : String) ≠ "global:all" by simp)]
    exact decide_eq_true hfl

/-- C7: scope isolation of review queues.  Any permutation of the queue
opened for scope `S` contains a card only if the card's scope key is
`S`'s key, or `S` is not global and the card is global; hence a card
stored under `chat:A` never appears in the queue for a different
`chat:B`, while a due global card is admitted into the queue of every
scope. -/
theorem scope_isolation :
    (∀ (store q : List Card) (scope : Scope) (now : ℚ) (c : Card),
      q.Perm (openLeitnerQueue store scope now) → c ∈ q →
      c.scopeKey = getScopeKey scope ∨
        (getScopeKey scope ≠ "global:all" ∧ c.scopeKey = "global:all")) ∧
    (∀ (store q : List Card) (A B : String) (now : ℚ) (c : Card),
      A ≠ "" → B ≠ "" → A ≠ B →
      c.scopeKey = getScopeKey ⟨"chat", some A⟩ →
      q.Perm (openLeitnerQueue store ⟨"chat", some B⟩ now) → c ∉ q) ∧
    (∀ (store : List Card) (scope : Scope) (now : ℚ) (c : Card) (d : ℚ),
      c ∈ store → c.scopeKey = "global:all" → c.dueDate = some d → ⌊d⌋ ≤ ⌊now⌋ →
      c ∈ openLeitnerQueue store scope now) := by
  refine ⟨?_, ?_, ?_⟩
  · intro store q scope now c hperm hmem
    exact mem_openLeitnerQueue (hperm.mem_iff.mp hmem)
  · intro store q A B now c hA hB hAB hc hperm hmem
    rw [getScopeKey_chat hA] at hc
    rcases mem_openLeitnerQueue (hperm.mem_iff.mp hmem) with hq | hq
    · rw [getScopeKey_chat hB] at hq
      exact hAB (string_append_left_cancel (hc ▸ hq))
    · exact chat_key_ne_global A (hc ▸ hq.2)
  · intro store scope now c d hmem hkey hdue hfl
    exact global_card_mem_queue hmem hkey hdue hfl

theorem scope_isolation_witness :
    globalSunCard ∈ openLeitnerQueue [globalSunCard] ⟨"chat", some "A"⟩ 0 ∧
    (globalSunCard.scopeKey = getScopeKey ⟨"chat", some "A"⟩ ∨
      (getScopeKey ⟨"chat", some "A"⟩ ≠ "global:all" ∧
        globalSunCard.scopeKey = "global:all")) ∧
    chatASunCard ∉ openLeitnerQueue [chatASunCard] ⟨"chat", some "B"⟩ 0 := by
  have h3 := scope_isolation.2.2 [globalSunCard] ⟨"chat", some "A"⟩ 0 globalSunCard 0
    (by simp) rfl rfl (le_refl _)
  refine ⟨h3, ?_, ?_⟩
  · exact scope_isolation.1 [globalSunCard] _ ⟨"chat", some "A"⟩ 0 globalSunCard
      (List.Perm.refl _) h3
  · exact scope_isolation.2.1 [chatASunCard] _ "A" "B" 0 chatASunCard
      (by decide) (by decide) (by decide) (by decide) (List.Perm.refl _)

theorem add_existing_noop {store : List Card} {word : String} {scope : Scope}
    {now : ℚ} {c : Card} (hne : normalizeWord word ≠ "")
    (hfound : findByKey Card.id store (getLeitnerCardId (normalizeWord word) scope)
        = some c) :
    addCurrentWordToLeitner store word scope now = (store, .alreadyExists) := by
  simp only [addCurrentWordToLeitner]
  rw [if_neg hne, hfound]

/-- C8: adding a word is deduplicated per scope identity.  If a card with
the word's id is already stored, `addCurrentWordToLeitner` reports
"already exists" and leaves the store untouched; consequently a second
add of the same word under the same scope after a successful add is a
no-op, and the store holds exactly one card with that id. -/
theorem add_word_dedup :
    (∀ (store : List Card) (word : String) (scope : Scope) (now : ℚ) (c : Card),
      normalizeWord word ≠ "" →
      findByKey Card.id store (getLeitnerCardId (normalizeWord word) scope) = some c →
      addCurrentWordToLeitner store word scope now = (store, .alreadyExists)) ∧
    (∀ (store : List Card) (word : String) (scope : Scope) (now now' : ℚ),
      (addCurrentWordToLeitner store word scope now).2 = .added →
      addCurrentWordToLeitner (addCurrentWordToLeitner store word scope now).1
          word scope now'
        = ((addCurrentWordToLeitner store word scope now).1, .alreadyExists) ∧
      (addCurrentWordToLeitner store word scope now).1.countP
          (fun x => decide (x.id = getLeitnerCardId (normalizeWord word) scope)) = 1) := by
  constructor
  · intro store word scope now c hne hfound
    exact add_existing_noop hne hfound
  · intro store word scope now now' hadd
    by_cases hne : normalizeWord word = ""
    · simp only [addCurrentWordToLeitner, if_pos hne] at hadd
      simp at hadd
    · cases hf : findByKey Card.id store (getLeitnerCardId (normalizeWord word) scope) with
      | some c =>
          rw [add_existing_noop hne hf] at hadd
          simp at hadd
      | none =>
          have hs1 : (addCurrentWordToLeitner store word scope now).1
              = putByKey Card.id store (newLeitnerCard (normalizeWord word) scope now) := by
            simp only [addCurrentWordToLeitner]
            rw [if_neg hne, hf]
          have hid : (newLeitnerCard (normalizeWord word) scope now).id
              = getLeitnerCardId (normalizeWord word) scope := rfl
          have hfound1 : findByKey Card.id (addCurrentWordToLeitner store word scope now).1
              (getLeitnerCardId (normalizeWord word) scope)
              = some (newLeitnerCard (normalizeWord word) scope now) := by
            rw [hs1, findByKey_putByKey, hid, if_pos rfl]
          constructor
          · exact add_existing_noop hne hfound1
          · have hnotin : ∀ x ∈ store, x.id ≠ getLeitnerCardId (normalizeWord word) scope :=
              (findByKey_eq_none_iff Card.id store _).mp hf
            have hany : ¬ store.any
                (fun x => decide (x.id = (newLeitnerCard (normalizeWord word) scope now).id))
                  = true := by
              intro h
              obtain ⟨x, hx, hxc⟩ := List.any_eq_true.mp h
              exact hnotin x hx (by rw [← hid]; exact of_decide_eq_true hxc)
            rw [hs1]
            unfold putByKey
            rw [if_neg hany, List.countP_append]
            have hzero : store.countP
                (fun x => decide (x.id = getLeitnerCardId (normalizeWord word) scope)) = 0 := by
              rw [List.countP_eq_zero]
              intro x hx
              simp only [decide_eq_true_eq]
              exact hnotin x hx
            have hone : [newLeitnerCard (normalizeWord word) scope now].countP
                (fun x => decide (x.id = getLeitnerCardId (normalizeWord word) scope)) = 1 := by
              simp [List.countP_cons, hid]
            rw [hzero, hone]

theorem add_word_dedup_witness :
    addCurrentWordToLeitner (addCurrentWordToLeitner [] "apple" ⟨"chat", some "A"⟩ 0).1
        "apple" ⟨"chat", some "A"⟩ 1
      = ((addCurrentWordToLeitner [] "apple" ⟨"chat", some "A"⟩ 0).1, .alreadyExists) ∧
    (addCurrentWordToLeitner [] "apple" ⟨"chat", some "A"⟩ 0).1.countP
        (fun x => decide (x.id = getLeitnerCardId (normalizeWord "apple") ⟨"chat", some "A"⟩))
      = 1 :=
  add_word_dedup.2 [] "apple" ⟨"chat", some "A"⟩ 0 1 (by decide)

theorem migrateLegacy_cons (now : ℚ) (v : LegacyCard) (l : List LegacyCard)
    (s : List MigCard) :
    migrateLegacy now (v :: l) s =
      migrateLegacy now l
        (if v.word = "" then s else putByKey MigCard.id s (migrateRecord now v)) := rfl

theorem migLookupAfter_cons (now : ℚ) (v : LegacyCard) (l : List LegacyCard)
    (g : String → Option MigCard) :
    migLookupAfter now (v :: l) g =
      migLookupAfter now l
        (if v.word = "" then g
         else fun k => if (migrateRecord now v).id = k then some (migrateRecord now v)
                       else g k) := rfl

theorem migrateLegacy_nodup (now : ℚ) :
    ∀ (l : List LegacyCard) (s : List MigCard),
      (s.map MigCard.id).Nodup → ((migrateLegacy now l s).map MigCard.id).Nodup := by
  intro l
  induction l with
  | nil => intro s h; exact h
  | cons v l ih =>
      intro s h
      rw [migrateLegacy_cons]
      by_cases hv : v.word = ""
      · rw [if_pos hv]
        exact ih s h
      · rw [if_neg hv]
        exact ih _ (nodup_map_key_putByKey MigCard.id s _ h)

theorem findByKey_migrateLegacy (now : ℚ) :
    ∀ (l : List LegacyCard) (s : List MigCard) (k : String),
      findByKey MigCard.id (migrateLegacy now l s) k
        = migLookupAfter now l (findByKey MigCard.id s) k := by
  intro l
  induction l with
  | nil => intro s k; rfl
  | cons v l ih =>
      intro s k
      rw [migrateLegacy_cons, migLookupAfter_cons, ih]
      have harg : findByKey MigCard.id
          (if v.word = "" then s else putByKey MigCard.id s (migrateRecord now v))
          = (if v.word = "" then findByKey MigCard.id s
             else fun k => if (migrateRecord now v).id = k
                           then some (migrateRecord now v)
                           else findByKey MigCard.id s k) := by
        by_cases hv : v.word = ""
        · rw [if_pos hv, if_pos hv]
        · rw [if_neg hv, if_neg hv]
          funext k'
          exact findByKey_putByKey MigCard.id s (migrateRecord now v) k'
      rw [harg]

theorem migLookupAfter_none_char (now : ℚ) :
    ∀ (l : List LegacyCard) (g : String → Option MigCard) (k : String),
      migLookupAfter now l g k
        = match migLookupAfter now l (fun _ => none) k with
          | some c => some c
          | none => g k := by
  intro l
  induction l with
  | nil => intro g k; rfl
  | cons v l ih =>
      intro g k
      rw [migLookupAfter_cons, migLookupAfter_cons]
      by_cases hv : v.word = ""
      · rw [if_pos hv, if_pos hv]
        exact ih g k
      · rw [if_neg hv, if_neg hv,
            ih (fun k' => if (migrateRecord now v).id = k'
                then some (migrateRecord now v) else g k') k,
            ih (fun k' => if (migrateRecord now v).id = k'
                then some (migrateRecord now v) else none) k]
        cases hA : migLookupAfter now l (fun _ => none) k with
        | some c => rfl
        | none => by_cases hk : (migrateRecord now v).id = k <;> simp [hk]

theorem migLookupAfter_idem (now : ℚ) (l : List LegacyCard)
    (g : String → Option MigCard) (k : String) :
    migLookupAfter now l (migLookupAfter now l g) k = migLookupAfter now l g k := by
  rw [migLookupAfter_none_char now l (migLookupAfter now l g) k,
      migLookupAfter_none_char now l g k]
  cases hA : migLookupAfter now l (fun _ => none) k with
  | some c => rfl
  | none => rfl

theorem mem_ids_migrateLegacy (now : ℚ) :
    ∀ (l : List LegacyCard) (s : List MigCard) (k : String),
      k ∈ s.map MigCard.id → k ∈ (migrateLegacy now l s).map MigCard.id := by
  intro l
  induction l with
  | nil => intro s k h; exact h
  | cons v l ih =>
      intro s k h
      rw [migrateLegacy_cons]
      by_cases hv : v.word = ""
      · rw [if_pos hv]
        exact ih s k h
      · rw [if_neg hv]
        exact ih _ k (mem_map_key_putByKey_of_mem MigCard.id s _ k h)

theorem mig_id_mem (now : ℚ) :
    ∀ (l : List LegacyCard) (s : List MigCard) (v : LegacyCard),
      v ∈ l → v.word ≠ "" →
      (migrateRecord now v).id ∈ (migrateLegacy now l s).map MigCard.id := by
  intro l
  induction l with
  | nil => intro s v hv; exact absurd hv (List.not_mem_nil v)
  | cons u l ih =>
      intro s v hv hw
      rw [migrateLegacy_cons]
      rcases List.mem_cons.mp hv with heq | hmem
      · subst heq
        rw [if_neg hw]
        exact mem_ids_migrateLegacy now l _ _ (mem_map_key_putByKey_self MigCard.id s _)
      · by_cases hu : u.word = ""
        · rw [if_pos hu]
          exact ih s v hmem hw
        · rw [if_neg hu]
          exact ih _ v hmem hw

theorem migrateLegacy_ids_stable (now : ℚ) :
    ∀ (l : List LegacyCard) (s : List MigCard),
      (∀ v ∈ l, v.word ≠ "" → (migrateRecord now v).id ∈ s.map MigCard.id) →
      (migrateLegacy now l s).map MigCard.id = s.map MigCard.id := by
  intro l
  induction l with
  | nil => intro s _; rfl
  | cons v l ih =>
      intro s h
      rw [migrateLegacy_cons]
      by_cases hv : v.word = ""
      · rw [if_pos hv]
        exact ih s (fun u hu hw => h u (List.mem_cons_of_mem v hu) hw)
      · rw [if_neg hv]
        have hids : (putByKey MigCard.id s (migrateRecord now v)).map MigCard.id
            = s.map MigCard.id :=
          map_key_putByKey_of_mem MigCard.id s _ (h v (List.mem_cons_self v l) hv)
        rw [ih _ (fun u hu hw => by
              rw [hids]
              exact h u (List.mem_cons_of_mem v hu) hw), hids]

/-- C9: the legacy-to-scoped migration is idempotent: over a store whose
ids are duplicate-free, running the cursor loop twice over the same
legacy records yields exactly the store the first run yields, the ids it
leaves are still duplicate-free (each migrated record's id is a
deterministic function of the legacy record and the write is an upsert by
id), and a legacy record with a missing word is skipped without effect. -/
theorem migration_idempotent :
    (∀ (now : ℚ) (legacy : List LegacyCard) (store : List MigCard),
      (store.map MigCard.id).Nodup →
      migrateLegacy now legacy (migrateLegacy now legacy store)
          = migrateLegacy now legacy store ∧
      ((migrateLegacy now legacy store).map MigCard.id).Nodup) ∧
    (∀ (now : ℚ) (store : List MigCard) (v : LegacyCard) (l1 l2 : List LegacyCard),
      v.word = "" →
      migrateLegacy now (l1 ++ v :: l2) store = migrateLegacy now (l1 ++ l2) store) := by
  constructor
  · intro now legacy store hnodup
    have hnodup1 := migrateLegacy_nodup now legacy store hnodup
    have hids : (migrateLegacy now legacy (migrateLegacy now legacy store)).map MigCard.id
        = (migrateLegacy now legacy store).map MigCard.id :=
      migrateLegacy_ids_stable now legacy _
        (fun v hv hw => mig_id_mem now legacy store v hv hw)
    have hlook : ∀ k,
        findByKey MigCard.id (migrateLegacy now legacy (migrateLegacy now legacy store)) k
          = findByKey MigCard.id (migrateLegacy now legacy store) k := by
      intro k
      rw [findByKey_migrateLegacy now legacy _ k, findByKey_migrateLegacy now legacy store k,
          show findByKey MigCard.id (migrateLegacy now legacy store)
              = migLookupAfter now legacy (findByKey MigCard.id store)
            from funext (fun k' => findByKey_migrateLegacy now legacy store k')]
      exact migLookupAfter_idem now legacy (findByKey MigCard.id store) k
    refine ⟨eq_of_map_key_eq_of_lookups_eq MigCard.id _ _ hids ?_ hlook, hnodup1⟩
    rw [hids]
    exact hnodup1
  · intro now store v l1 l2 hv
    unfold migrateLegacy
    rw [List.foldl_append, List.foldl_append, List.foldl_cons]
    simp [hv]

theorem migration_idempotent_witness :
    (migrateLegacy 0 [legacyCatCard] (migrateLegacy 0 [legacyCatCard] [])
        = migrateLegacy 0 [legacyCatCard] [] ∧
      ((migrateLegacy 0 [legacyCatCard] []).map MigCard.id).Nodup) ∧
    migrateLegacy 0 ([] ++ legacyBlankCard :: [legacyCatCard]) []
        = migrateLegacy 0 ([] ++ [legacyCatCard]) [] :=
  ⟨migration_idempotent.1 0 [legacyCatCard] [] (by simp),
   migration_idempotent.2 0 [] legacyBlankCard [] [legacyCatCard] rfl⟩

end LeitnerApp
